import Mathlib

/-!
Verification of the procurement-comparison pipeline (src/app.py).

The pipeline compares two tabular snapshots keyed by an item identifier and
reports rows newly present in the new snapshot whose delay exceeds zero,
then renders three sheets into a workbook.

Shallow embedding notes:
* a pandas cell is modelled by `Cell` (None/NaN, finite float, int, string);
  Python floats are modelled by `Rat` (the pipeline only relies on
  `is_integer`, NaN-ness and numeric comparison, all of which `Rat` models);
* a `DataFrame` is a `Table` (column labels plus rows of cells); a key-indexed
  frame (after `set_index`) is an `ITable` whose index entries are the
  normalized string keys produced by `_clean_key_value`;
* Python string helpers (`str.split()`, `str.strip()`, `str.lower()`, the two
  parenthesis regex substitutions, `str.replace`) are implemented over
  `List Char` so that every definition reduces in the kernel.
-/

/-- A scalar cell value: `None`/float-NaN, a finite Python float, a Python
int, or a string (matching the dynamic types `_clean_key_value` inspects). -/
inductive Cell where
  | null : Cell
  | flt (q : Rat) : Cell
  | intv (n : Int) : Cell
  | str (s : String) : Cell
deriving DecidableEq, Repr

/-- A row of cells, positionally aligned with a column list. -/
abbrev Row := List Cell

/-- `cellAt r i` reads the cell in position `i` (missing positions read as
`Cell.null`, matching how an aligned frame fills absent values). -/
def cellAt : Row → Nat → Cell
  | [], _ => Cell.null
  | c :: _, 0 => c
  | _ :: rest, i + 1 => cellAt rest i

/-- `setCell r i v` overwrites position `i` of a row (out of range: no-op). -/
def setCell : Row → Nat → Cell → Row
  | [], _, _ => []
  | _ :: rest, 0, v => v :: rest
  | c :: rest, i + 1, v => c :: setCell rest i v

/-- Position of the first column with a given label, the way pandas resolves
a column label to a position for a frame without duplicate labels. -/
def idxOf? (x : String) : List String → Option Nat
  | [] => none
  | c :: rest => if c = x then some 0 else (idxOf? x rest).map (· + 1)

/-- A raw `DataFrame`: ordered column labels and rows of cells. -/
structure Table where
  cols : List String
  rows : List Row
deriving DecidableEq, Repr

/-- A key-indexed `DataFrame` (the result of `set_index(key)`): the index name,
the remaining ordinary columns, and rows addressed by their string key. -/
structure ITable where
  keyName : String
  cols : List String
  rows : List (String × Row)
deriving DecidableEq, Repr

/-- The list of index entries of an indexed frame (`df.index`). -/
def ITable.keys (t : ITable) : List String := t.rows.map (·.1)

/-- Read the cell of row `r` under column label `c` (first matching label). -/
def getCell (cols : List String) (r : Row) (c : String) : Cell :=
  match idxOf? c cols with
  | some i => cellAt r i
  | none => Cell.null

/-! ### Python string helpers over `List Char` -/

/-- `s.replace("\xa0", " ")`: turn non-breaking spaces into ordinary spaces. -/
def replaceNbsp (cs : List Char) : List Char :=
  cs.map (fun c => if c = '\u00A0' then ' ' else c)

/-- `s.split()` (no separator): split on whitespace runs, dropping empties.
`acc` holds the current word reversed. -/
def wsSplitGo (acc : List Char) : List Char → List (List Char)
  | [] => if acc = [] then [] else [acc.reverse]
  | c :: rest =>
    if c.isWhitespace then
      if acc = [] then wsSplitGo [] rest else acc.reverse :: wsSplitGo [] rest
    else wsSplitGo (c :: acc) rest

/-- `" ".join(words)`. -/
def joinSpace : List (List Char) → List Char
  | [] => []
  | [w] => w
  | w :: ws => w ++ ' ' :: joinSpace ws

/-- `s.strip()`: drop leading and trailing whitespace. -/
def listTrim (cs : List Char) : List Char :=
  ((cs.dropWhile Char.isWhitespace).reverse.dropWhile Char.isWhitespace).reverse

/-- The two substitutions `re.sub(r"\s*\(\s*", "(", s)` and
`re.sub(r"\s*\)\s*", ")", s)` applied to a string whose whitespace runs have
already been collapsed to single spaces (as in `_norm_key_name`): every space
adjacent to a parenthesis is removed. `prev` is the previous original char. -/
def dropParenSpaces (prev : Option Char) : List Char → List Char
  | [] => []
  | c :: rest =>
    if c = ' ' ∧ (prev = some '(' ∨ prev = some ')' ∨
        rest.head? = some '(' ∨ rest.head? = some ')') then
      dropParenSpaces (some c) rest
    else c :: dropParenSpaces (some c) rest

/-- `_norm_key_name`: nbsp to space, collapse whitespace, strip, lowercase,
remove whitespace immediately around parentheses. -/
def norm_key_name (name : String) : String :=
  let s := replaceNbsp name.data
  let s := listTrim (joinSpace (wsSplitGo [] s))
  let s := s.map Char.toLower
  String.mk (dropParenSpaces none s)

/-- The item-identifier synonym set of `_canon_columns`. -/
def itemSyns : List String :=
  ["item number", "itemnumber", "item no", "item_no", "itemnr", "item"]

/-- The delay synonym set of `_canon_columns`. -/
def delaySyns : List String :=
  ["delay(days)", "delay (days)", "delay_days", "delay",
   "vertraging(dagen)", "vertraging (dagen)"]

/-- The per-label renaming performed by `_canon_columns` (labels not in the
rename map pass through unchanged). -/
def canonName (c : String) : String :=
  let k := norm_key_name c
  if k ∈ itemSyns then "Item number"
  else if k ∈ delaySyns then "Delay (days)"
  else if k = "number" then "Number"
  else c

/-- `_canon_columns`: rename the column labels, leaving the rows untouched. -/
def canon_columns (df : Table) : Table :=
  { df with cols := df.cols.map canonName }

/-- `_ensure_item_number`: if `Item number` is missing but `Number` exists,
copy the `Number` column into a new trailing `Item number` column. -/
def ensure_item_number (df : Table) : Table :=
  if "Item number" ∉ df.cols ∧ "Number" ∈ df.cols then
    { cols := df.cols ++ ["Item number"],
      rows := df.rows.map (fun r => r ++ [getCell df.cols r "Number"]) }
  else df

/-- Python `str.strip()` as a `String` function. -/
def pyStrip (s : String) : String := String.mk (listTrim s.data)

/-- Abstraction of Python `str(v)` on a non-NaN float `v`: only the
integer-valued case (`v.is_integer()`) is ever consumed by the pipeline; a
non-integer float renders as its decimal-point form. -/
def pyFloatStr (q : Rat) : String :=
  if q.den = 1 then toString q.num ++ ".0" else toString q

/-- `_clean_key_value`: `None`/NaN to `""`; an integer-valued float to the
decimal string of its integer (`str(int(v))`); otherwise `str(v).strip()`. -/
def clean_key_value (v : Cell) : String :=
  match v with
  | .null => ""
  | .flt q => if q.den = 1 then toString q.num else pyStrip (pyFloatStr q)
  | .intv n => pyStrip (toString n)
  | .str s => pyStrip s

/-! ### Dataset preparer (`_prepare`) -/

/-- `df[key] = df[key].map(_clean_key_value)`: overwrite the key column with
its normalized string keys (missing key column: no-op, unreachable after the
existence check). -/
def map_key_col (df : Table) (key : String) : Table :=
  match idxOf? key df.cols with
  | some i =>
    { df with rows := df.rows.map (fun r =>
        setCell r i (Cell.str (clean_key_value (cellAt r i)))) }
  | none => df

/-- `drop_duplicates(subset=[key], keep="last")` on the row list: a row is
kept iff no later row carries the same key value. -/
def dedupLastBy (f : Row → Cell) : List Row → List Row
  | [] => []
  | r :: rest =>
    if ∃ r2 ∈ rest, f r2 = f r then dedupLastBy f rest
    else r :: dedupLastBy f rest

/-- `df.drop_duplicates(subset=[key], keep="last")`. -/
def dedup_last (df : Table) (key : String) : Table :=
  { df with rows := dedupLastBy (fun r => getCell df.cols r key) df.rows }

/-- Code-point lexicographic comparison of character lists (the order
Python's `sorted` uses on strings). -/
def charListLe : List Char → List Char → Bool
  | [], _ => true
  | _ :: _, [] => false
  | a :: as, b :: bs =>
    if a.toNat < b.toNat then true
    else if b.toNat < a.toNat then false
    else charListLe as bs

/-- Python string comparison. -/
def strLe (a b : String) : Bool := charListLe a.data b.data

/-- Insert a string into an ascending list (helper for `sortStr`). -/
def insertSorted (s : String) : List String → List String
  | [] => [s]
  | t :: rest => if strLe s t then s :: t :: rest else t :: insertSorted s rest

/-- Python `sorted` over strings (ascending lexicographic order). -/
def sortStr : List String → List String
  | [] => []
  | s :: rest => insertSorted s (sortStr rest)

/-- `df[cols]`: restrict a frame to the given column labels, in that order. -/
def project (df : Table) (cols : List String) : Table :=
  { cols := cols, rows := df.rows.map (fun r => cols.map (getCell df.cols r)) }

/-- The index entry a key cell denotes. In the pipeline the key column has
been passed through `_clean_key_value`, so it always holds a string. -/
def Cell.keyStr : Cell → String
  | .str s => s
  | _ => ""

/-- `df.set_index(key)`: the key column becomes the index; the remaining
columns stay in order. -/
def set_index (df : Table) (key : String) : ITable :=
  { keyName := key,
    cols := df.cols.filter (fun c => decide (c ≠ key)),
    rows := df.rows.map (fun r =>
      ((getCell df.cols r key).keyStr,
       (df.cols.filter (fun c => decide (c ≠ key))).map (getCell df.cols r))) }

/-- Concatenate strings with a separator (Python `", ".join`). -/
def joinStr (sep : String) : List String → String
  | [] => ""
  | [s] => s
  | s :: rest => s ++ sep ++ joinStr sep rest

/-- Python `repr` of a list of strings, as interpolated into the error text. -/
def listRepr (l : List String) : String :=
  "[" ++ joinStr ", " (l.map (fun s => "\x27" ++ s ++ "\x27")) ++ "]"

/-- The `KeyError` message raised by `_prepare` when the key column is
missing from either file: it names the key and lists both column lists. -/
def schemaErrorMsg (key : String) (oldCols newCols : List String) : String :=
  "Kolom \x27" ++ key ++ "\x27 ontbreekt in één van de bestanden.\n" ++
  "Oud kolommen: " ++ listRepr oldCols ++ "\n" ++
  "Nieuw kolommen: " ++ listRepr newCols

/-- `_prepare`: canonicalize and apply the `Number` fallback on both tables,
check the key column exists in both (else fail with the schema error),
normalize key values, deduplicate keeping the last occurrence, restrict both
tables to the sorted common columns (key first) and index them by the key. -/
def prepare (dfOldIn dfNewIn : Table) (key : String) :
    Except String (ITable × ITable × List String) :=
  let dfOld := ensure_item_number (canon_columns dfOldIn)
  let dfNew := ensure_item_number (canon_columns dfNewIn)
  if key ∉ dfOld.cols ∨ key ∉ dfNew.cols then
    .error (schemaErrorMsg key dfOld.cols dfNew.cols)
  else
    let dfOld2 := dedup_last (map_key_col dfOld key) key
    let dfNew2 := dedup_last (map_key_col dfNew key) key
    let common0 := sortStr ((dfNew2.cols.filter (fun c => decide (c ∈ dfOld2.cols))).dedup)
    let commonCols :=
      if key ∈ common0 then key :: common0.filter (fun c => decide (c ≠ key))
      else common0
    .ok (set_index (project dfOld2 commonCols) key,
         set_index (project dfNew2 commonCols) key, commonCols)

/-! ### Delta filter (`_new_rows_with_delay`) -/

/-- Value of a decimal digit string (left fold; `""` reads as 0, matching
`int("0…")` on the digit runs fed to it). -/
def decDigits (cs : List Char) : Nat :=
  cs.foldl (fun a c => 10 * a + (c.toNat - 48)) 0

/-- Split a character list on `.` separators (as `"…".split(".")`). -/
def splitDots (cs : List Char) : List (List Char) :=
  match cs with
  | [] => [[]]
  | '.' :: rest => [] :: splitDots rest
  | c :: rest =>
    match splitDots rest with
    | [] => [[c]]
    | w :: ws => (c :: w) :: ws

/-- Parse a decimal numeral the way `pd.to_numeric` accepts a string:
optional sign, digits, optional fractional digits; anything else is
unparseable (`none`, modelling NaN from `errors="coerce"`). -/
def parseNum (s : String) : Option Rat :=
  let t := pyStrip s
  let (neg, ds) :=
    match t.data with
    | '-' :: rest => (true, rest)
    | '+' :: rest => (false, rest)
    | us => (false, us)
  let signed (q : Rat) : Option Rat := some (if neg then -q else q)
  match splitDots ds with
  | [a] =>
    if a ≠ [] ∧ a.all Char.isDigit then signed ((decDigits a : Nat) : Rat)
    else none
  | [a, b] =>
    if (a ≠ [] ∨ b ≠ []) ∧ a.all Char.isDigit ∧ b.all Char.isDigit then
      signed (((decDigits a : Nat) : Rat) +
        ((decDigits b : Nat) : Rat) / ((10 : Rat) ^ b.length))
    else none
  | _ => none

/-- `pd.to_numeric(col, errors="coerce").fillna(0)` applied to one cell:
numbers keep their value, parseable strings are parsed, everything else
(including `None`/NaN) coerces to NaN and is then filled with 0. -/
def delayNum (c : Cell) : Rat :=
  match c with
  | .null => 0
  | .flt q => q
  | .intv n => (n : Rat)
  | .str s => (parseNum s).getD 0

/-- Numeric value of a cell of the already-coerced delay column, as compared
by `df["Delay (days)"] > 0` (after coercion every cell is a number). -/
def cellRat : Cell → Rat
  | .flt q => q
  | .intv n => (n : Rat)
  | _ => 0

/-- `df_new_idx.loc[added_keys]`: for each key in order, all rows of the
frame carrying that key (exactly one for a deduplicated frame). -/
def selectRows (n : ITable) : List String → List (String × Row)
  | [] => []
  | k :: ks => n.rows.filter (fun p => decide (p.1 = k)) ++ selectRows n ks

/-- `sorted(set(df_new_idx.index) - set(df_old_idx.index))`. -/
def newOnlyKeys (o n : ITable) : List String :=
  sortStr ((n.keys.filter (fun k => decide (k ∉ o.keys))).dedup)

/-- `reset_index()` on one indexed row: the key returns as the leading cell. -/
def unindexRow (p : String × Row) : Row := Cell.str p.1 :: p.2

/-- `_new_rows_with_delay`: keys of the new frame absent from the old frame,
sorted; if none, an empty table whose columns mirror the new frame (with
`Item number` first); otherwise those rows of the new frame with, when a
`Delay (days)` column exists, that column coerced to numbers and the rows
filtered to a strictly positive coerced delay; the index is restored as the
leading column. -/
def new_rows_with_delay (dfOldIdx dfNewIdx : ITable) : Table :=
  let addedKeys := newOnlyKeys dfOldIdx dfNewIdx
  if addedKeys = [] then
    { cols := "Item number" ::
        dfNewIdx.cols.filter (fun c => decide (c ≠ "Item number")),
      rows := [] }
  else
    let selected := selectRows dfNewIdx addedKeys
    match idxOf? "Delay (days)" dfNewIdx.cols with
    | some i =>
      let coerced := selected.map (fun p =>
        (p.1, setCell p.2 i (Cell.flt (delayNum (cellAt p.2 i)))))
      let kept := coerced.filter (fun p => decide (0 < cellRat (cellAt p.2 i)))
      { cols := dfNewIdx.keyName :: dfNewIdx.cols, rows := kept.map unindexRow }
    | none =>
      { cols := dfNewIdx.keyName :: dfNewIdx.cols,
        rows := selected.map unindexRow }

/-! ### Excel-safe headers (`_excel_safe_headers`) -/

/-- The decimal digit character of `d < 10` (as in an f-string). -/
def digitCh (d : Nat) : Char := Char.ofNat (48 + d)

/-- Little-fuel decimal digit renderer: `natDigitsAux fuel n` is the decimal
digit string of `n` provided `n ≤ fuel` (and `[]` for `n = 0`). -/
def natDigitsAux : Nat → Nat → List Char
  | 0, _ => []
  | _ + 1, 0 => []
  | fuel + 1, n + 1 => natDigitsAux fuel ((n + 1) / 10) ++ [digitCh ((n + 1) % 10)]

/-- Decimal rendering of a natural, as an f-string renders an int. -/
def natStr (n : Nat) : String :=
  if n = 0 then "0" else String.mk (natDigitsAux n n)

/-- The character class of `_excel_bad_chars`. -/
def excelBadChar (c : Char) : Bool :=
  c = '[' || c = ']' || c = ':' || c = '*' || c = '?' || c = '\\' || c = '/'

/-- `_excel_bad_chars.sub("_", name)`: replace every bad character by `_`. -/
def sanitizeHeader (s : String) : String :=
  String.mk (s.data.map (fun c => if excelBadChar c then '_' else c))

/-- The collision loop of `_excel_safe_headers`: while the name is taken,
bump `n` and retry `base_n`. `fuel = seen.length + 2` bounds the loop, which
in the source terminates because the candidates `base_2, base_3, …` are
pairwise distinct while `seen` is finite. -/
def uniquifyGo (seen : List String) (base : String) : Nat → Nat → String → String
  | 0, _, name => name
  | fuel + 1, n, name =>
    if name ∈ seen then
      uniquifyGo seen base fuel (n + 1) (base ++ "_" ++ natStr (n + 1))
    else name

/-- Append `_2`, `_3`, … to a name until it avoids the `seen` set. -/
def uniquify (seen : List String) (base : String) : String :=
  uniquifyGo seen base (seen.length + 2) 1 base

/-- The per-column body of `_excel_safe_headers`: columns left to right with
1-based position `i`; blank headers become `Column<i>`; bad characters become
`_`; collisions with earlier final names get `_2`, `_3`, … appended. -/
def excelGo (i : Nat) (seen : List String) : List String → List String
  | [] => []
  | c :: rest =>
    let name := pyStrip c
    let name := if name = "" then "Column" ++ natStr i else name
    let name := sanitizeHeader name
    let name := uniquify seen name
    name :: excelGo (i + 1) (name :: seen) rest

/-- The sanitized header list produced by `_excel_safe_headers`. -/
def excelSafeCols (cols : List String) : List String := excelGo 1 [] cols

/-! ### Excel export (`to_excel_bytes`)

`_safe_table_name` draws an 8-character random suffix from `uuid4` and is
not modelled (no claim concerns table display names). The worksheet is
modelled by its dimensions: pandas writes one header row plus the data rows,
and `openpyxl` reports at least one row and one column even for a blank
sheet. `to_excel_bytes` is embedded with an explicit frame heap so that the
copy-on-export behaviour of the source (`df.copy()`, `reset_index()`
returning a fresh frame) is visible: pandas frames are mutable objects, and
the export must leave the caller's frames untouched. -/

/-- `df.reset_index()`: the index returns as the leading ordinary column. -/
def reset_index (t : ITable) : Table :=
  { cols := t.keyName :: t.cols, rows := t.rows.map unindexRow }

/-- A pandas frame object held on the heap: either still key-indexed or in
plain row form. -/
inductive Frame where
  | idx (t : ITable)
  | plain (t : Table)
deriving DecidableEq, Repr

/-- `df.columns` (the index of an indexed frame is not a column). -/
def Frame.columns : Frame → List String
  | .idx t => t.cols
  | .plain t => t.cols

/-- `df.columns = cols` (in-place relabelling; rows untouched). -/
def Frame.setColumns : Frame → List String → Frame
  | .idx t, cs => .idx { t with cols := cs }
  | .plain t, cs => .plain { t with cols := cs }

/-- The cell grid `to_excel(..., index=False)` writes for a frame (only
plain frames are written by the pipeline). -/
def Frame.sheetTable : Frame → Table
  | .idx t => { cols := t.cols, rows := t.rows.map (·.2) }
  | .plain t => t

/-- The heap of live pandas frame objects; a frame reference is an index. -/
structure PdState where
  heap : List Frame
deriving DecidableEq, Repr

/-- The frame a reference designates (dangling references read as an empty
frame; the pipeline only reads references it holds). -/
def readDf (st : PdState) (r : Nat) : Frame :=
  st.heap.getD r (.plain { cols := [], rows := [] })

/-- Allocate a fresh frame object, returning its reference. -/
def allocDf (st : PdState) (f : Frame) : PdState × Nat :=
  ({ heap := st.heap ++ [f] }, st.heap.length)

/-- Overwrite the frame object behind a reference (in-place mutation). -/
def writeDf (st : PdState) (r : Nat) (f : Frame) : PdState :=
  { heap := st.heap.set r f }

/-- `df.copy()`: a fresh frame with the same contents. -/
def pd_copy (st : PdState) (r : Nat) : PdState × Nat :=
  allocDf st (readDf st r)

/-- `df.columns = cols`: mutate the frame behind `r`. -/
def pd_set_columns (st : PdState) (r : Nat) (cols : List String) : PdState :=
  writeDf st r ((readDf st r).setColumns cols)

/-- `df.reset_index()` (no `inplace`): allocates a new plain frame. -/
def pd_reset_index (st : PdState) (r : Nat) : PdState × Nat :=
  match readDf st r with
  | .idx t => allocDf st (.plain (reset_index t))
  | .plain t => allocDf st (.plain t)

/-- `_excel_safe_headers(df)`: compute the safe headers from `df.columns`,
then `out = df.copy()` and `out.columns = cols_out`; `df` is not mutated. -/
def excel_safe_headers_pd (st : PdState) (r : Nat) : PdState × Nat :=
  let colsOut := excelSafeCols (readDf st r).columns
  let st1out := pd_copy st r
  (pd_set_columns st1out.1 st1out.2 colsOut, st1out.2)

/-- Worksheet dimensions `(max_row, max_column)` after `to_excel`: one header
row plus the data rows; `openpyxl` reports at least `(1, 1)`. -/
def sheetDims (t : Table) : Nat × Nat :=
  if t.cols.length = 0 then (1, 1) else (1 + t.rows.length, t.cols.length)

/-- `add_table`: a table region `A1:…` spanning the whole sheet is attached
only when `ws.max_row >= 2 and ws.max_column >= 1`. -/
def addTableRegion (dims : Nat × Nat) : Option (Nat × Nat) :=
  if 2 ≤ dims.1 ∧ 1 ≤ dims.2 then some dims else none

/-- The exported workbook: three titled sheets, each carrying its cell grid
and its attached table region (if any). -/
structure Workbook where
  sheets : List (String × Table × Option (Nat × Nat))
deriving DecidableEq, Repr

/-- One sheet of the export: the grid of the written frame plus the region
`add_table` attaches given the worksheet dimensions. -/
def mkSheet (st : PdState) (title : String) (r : Nat) :
    String × Table × Option (Nat × Nat) :=
  let t := (readDf st r).sheetTable
  (title, t, addTableRegion (sheetDims t))

/-- `to_excel_bytes`: un-index the two indexed frames, sanitize all three
frames' headers for export (on copies), write the three fixed sheets and
attach the table regions. Returns the final heap and the workbook. -/
def to_excel_bytes_pd (st : PdState) (rOldIdx rNewIdx rAdded : Nat) :
    PdState × Workbook :=
  let s1 := pd_reset_index st rOldIdx
  let s2 := excel_safe_headers_pd s1.1 s1.2
  let s3 := pd_reset_index s2.1 rNewIdx
  let s4 := excel_safe_headers_pd s3.1 s3.2
  let s5 := excel_safe_headers_pd s4.1 rAdded
  (s5.1,
   { sheets := [mkSheet s5.1 "Oude_invoer" s2.2,
                mkSheet s5.1 "Nieuwe_invoer" s4.2,
                mkSheet s5.1 "Nieuwe_rijen_Delay_gt_0" s5.2] })

/-! ### Theorems: key normalizer and canonicalizer -/

/-- C3: the key normalizer maps null/NaN to the empty string, an
integer-valued float to the decimal string of its integer (no decimal point
or trailing zero), and anything else to its string form with surrounding
whitespace trimmed; consequently the float key `1001.0` and the string key
`"1001"` normalize to the same key. -/
theorem clean_key_value_spec :
    clean_key_value Cell.null = "" ∧
    (∀ q : Rat, q.den = 1 → clean_key_value (Cell.flt q) = toString q.num) ∧
    (∀ q : Rat, q.den ≠ 1 → clean_key_value (Cell.flt q) = pyStrip (pyFloatStr q)) ∧
    (∀ n : Int, clean_key_value (Cell.intv n) = pyStrip (toString n)) ∧
    (∀ s : String, clean_key_value (Cell.str s) = pyStrip s) ∧
    clean_key_value (Cell.flt 1001) = clean_key_value (Cell.str "1001") := by
  refine ⟨rfl, ?_, ?_, fun n => rfl, fun s => rfl, by decide⟩
  · intro q h
    simp [clean_key_value, h]
  · intro q h
    simp [clean_key_value, h]

/-- Witness for C3 at the concrete float `1001.0`. -/
theorem clean_key_value_spec_witness :
    (1001 : Rat).den = 1 ∧ clean_key_value (Cell.flt 1001) = "1001" := by
  refine ⟨rfl, ?_⟩
  have h := clean_key_value_spec.2.1 1001 rfl
  exact h.trans (by decide)

/-- `canonName` always lands in one of the three canonical labels or passes
the label through unchanged. -/
theorem canonName_cases (c : String) :
    canonName c = "Item number" ∨ canonName c = "Delay (days)" ∨
    canonName c = "Number" ∨ canonName c = c := by
  unfold canonName
  by_cases h1 : norm_key_name c ∈ itemSyns
  · exact Or.inl (if_pos h1)
  · rw [if_neg h1]
    by_cases h2 : norm_key_name c ∈ delaySyns
    · exact Or.inr (Or.inl (if_pos h2))
    · rw [if_neg h2]
      by_cases h3 : norm_key_name c = "number"
      · exact Or.inr (Or.inr (Or.inl (if_pos h3)))
      · exact Or.inr (Or.inr (Or.inr (if_neg h3)))

set_option maxHeartbeats 1000000 in
/-- The per-label renaming is idempotent. -/
theorem canonName_idem (c : String) : canonName (canonName c) = canonName c := by
  rcases canonName_cases c with h | h | h | h <;> rw [h]
  · decide
  · decide
  · decide
  · exact h

/-- Renaming a header list twice is the same as renaming it once. -/
theorem map_canonName_idem :
    ∀ l : List String, (l.map canonName).map canonName = l.map canonName := by
  intro l
  induction l with
  | nil => rfl
  | cons c cs ih =>
    simp only [List.map_cons]
    rw [canonName_idem c, ih]

/-- C8: column canonicalization is idempotent — canonicalizing an
already-canonical table yields the same table (same headers, same rows). -/
theorem canon_columns_idem (df : Table) :
    canon_columns (canon_columns df) = canon_columns df := by
  cases df with
  | mk cols rows =>
    show Table.mk ((cols.map canonName).map canonName) rows
        = Table.mk (cols.map canonName) rows
    rw [map_canonName_idem]

/-! ### Theorems: deduplication (C4) -/

/-- Rows surviving `dedupLastBy` come from the input. -/
theorem mem_dedupLastBy {f : Row → Cell} {x : Row} :
    ∀ {l : List Row}, x ∈ dedupLastBy f l → x ∈ l := by
  intro l
  induction l with
  | nil => intro h; simp [dedupLastBy] at h
  | cons r rest ih =>
    intro h
    by_cases hd : ∃ r2 ∈ rest, f r2 = f r
    · rw [dedupLastBy, if_pos hd] at h
      exact List.mem_cons_of_mem _ (ih h)
    · rw [dedupLastBy, if_neg hd] at h
      rcases List.mem_cons.mp h with h | h
      · exact h ▸ List.mem_cons_self _ _
      · exact List.mem_cons_of_mem _ (ih h)

/-- The rows kept for any key value `k` are exactly the last input row
carrying `k` (`getLast?` of the input rows with that key). -/
theorem dedupLastBy_filter (f : Row → Cell) (k : Cell) :
    ∀ l : List Row,
      (dedupLastBy f l).filter (fun r => decide (f r = k))
        = ((l.filter (fun r => decide (f r = k))).getLast?).toList := by
  intro l
  induction l with
  | nil => simp [dedupLastBy]
  | cons r rest ih =>
    by_cases hd : ∃ r2 ∈ rest, f r2 = f r
    · rw [dedupLastBy, if_pos hd]
      by_cases hk : f r = k
      · have hne : rest.filter (fun r => decide (f r = k)) ≠ [] := by
          obtain ⟨r2, hr2, he⟩ := hd
          exact List.ne_nil_of_mem
            (List.mem_filter.mpr ⟨hr2, by simp [he, hk]⟩)
        rw [ih, List.filter_cons_of_pos (by simp [hk])]
        cases hfr : rest.filter (fun r => decide (f r = k)) with
        | nil => exact absurd hfr hne
        | cons a as => rw [List.getLast?_cons_cons]
      · rw [List.filter_cons_of_neg (by simp [hk])]
        exact ih
    · rw [dedupLastBy, if_neg hd]
      by_cases hk : f r = k
      · have hrest : rest.filter (fun r => decide (f r = k)) = [] := by
          simp only [List.filter_eq_nil_iff]
          intro a ha hpa
          exact hd ⟨a, ha, by
            have : f a = k := by simpa using hpa
            rw [this, hk]⟩
        have hded : (dedupLastBy f rest).filter (fun r => decide (f r = k)) = [] := by
          rw [ih, hrest]; rfl
        rw [List.filter_cons_of_pos (by simp [hk]), hded,
          List.filter_cons_of_pos (by simp [hk]), hrest]
        rfl
      · rw [List.filter_cons_of_neg (by simp [hk]),
          List.filter_cons_of_neg (by simp [hk])]
        exact ih

/-- After deduplication all kept rows carry pairwise distinct key values. -/
theorem dedupLastBy_keys_distinct (f : Row → Cell) :
    ∀ l : List Row, (dedupLastBy f l).Pairwise (fun a b => f a ≠ f b) := by
  intro l
  induction l with
  | nil => exact List.Pairwise.nil
  | cons r rest ih =>
    by_cases hd : ∃ r2 ∈ rest, f r2 = f r
    · rw [dedupLastBy, if_pos hd]; exact ih
    · rw [dedupLastBy, if_neg hd]
      refine List.Pairwise.cons ?_ ih
      intro b hb he
      exact hd ⟨b, mem_dedupLastBy hb, he.symm⟩

/-- Deduplication does nothing on a list with pairwise distinct keys. -/
theorem dedupLastBy_of_distinct (f : Row → Cell) :
    ∀ l : List Row, l.Pairwise (fun a b => f a ≠ f b) → dedupLastBy f l = l := by
  intro l
  induction l with
  | nil => intro _; rfl
  | cons r rest ih =>
    intro hp
    rcases List.pairwise_cons.mp hp with ⟨hr, hrest⟩
    have hd : ¬ ∃ r2 ∈ rest, f r2 = f r := by
      rintro ⟨r2, hr2, he⟩
      exact hr r2 hr2 he.symm
    rw [dedupLastBy, if_neg hd, ih hrest]

/-- `dedupLastBy` is idempotent. -/
theorem dedupLastBy_idem (f : Row → Cell) (l : List Row) :
    dedupLastBy f (dedupLastBy f l) = dedupLastBy f l :=
  dedupLastBy_of_distinct f _ (dedupLastBy_keys_distinct f l)

/-- C4: deduplication by key keeps, for each key value, exactly the last row
holding that key in original row order, and deduplicating a second time
changes nothing. -/
theorem dedup_last_spec (df : Table) (key : String) :
    dedup_last (dedup_last df key) key = dedup_last df key ∧
    ∀ k : Cell,
      (dedup_last df key).rows.filter
          (fun r => decide (getCell df.cols r key = k))
        = ((df.rows.filter
            (fun r => decide (getCell df.cols r key = k))).getLast?).toList := by
  constructor
  · show Table.mk df.cols
        (dedupLastBy (fun r => getCell df.cols r key)
          (dedupLastBy (fun r => getCell df.cols r key) df.rows))
      = Table.mk df.cols (dedupLastBy (fun r => getCell df.cols r key) df.rows)
    rw [dedupLastBy_idem]
  · intro k
    exact dedupLastBy_filter _ k df.rows

/-! ### Theorems: schema check of the preparer (C2) -/

/-- C2: after canonicalization and the `Number` fallback, a key column absent
from either table makes `_prepare` fail with the error that names the key and
lists both tables' columns (so no indexed tables are produced); when the key
is present in both, no such error is raised and indexed tables are returned. -/
theorem prepare_key_check (dfOldIn dfNewIn : Table) (key : String) :
    ((key ∉ (ensure_item_number (canon_columns dfOldIn)).cols ∨
      key ∉ (ensure_item_number (canon_columns dfNewIn)).cols) →
      prepare dfOldIn dfNewIn key = .error
        ("Kolom \x27" ++ key ++ "\x27 ontbreekt in één van de bestanden.\n" ++
         "Oud kolommen: " ++
           listRepr (ensure_item_number (canon_columns dfOldIn)).cols ++ "\n" ++
         "Nieuw kolommen: " ++
           listRepr (ensure_item_number (canon_columns dfNewIn)).cols)) ∧
    (key ∈ (ensure_item_number (canon_columns dfOldIn)).cols →
     key ∈ (ensure_item_number (canon_columns dfNewIn)).cols →
      ∃ res, prepare dfOldIn dfNewIn key = .ok res) := by
  constructor
  · intro h
    simp only [prepare]
    rw [if_pos h]
    rfl
  · intro h1 h2
    simp only [prepare]
    rw [if_neg (by push_neg; exact ⟨h1, h2⟩)]
    exact ⟨_, rfl⟩

/-- A raw old table whose only column resolves to `Foo` (not the key). -/
def wMissOld : Table := { cols := ["Foo"], rows := [] }

/-- A raw table that does have the `Item number` column. -/
def wHasKey : Table := { cols := ["Item number"], rows := [[Cell.str "1"]] }

set_option maxHeartbeats 1000000 in
/-- Witness for C2: a concrete missing-key failure and a concrete success. -/
theorem prepare_key_check_witness :
    (prepare wMissOld wHasKey "Item number" = .error
      ("Kolom \x27Item number\x27 ontbreekt in één van de bestanden.\n" ++
       "Oud kolommen: " ++ listRepr ["Foo"] ++ "\n" ++
       "Nieuw kolommen: " ++ listRepr ["Item number"])) ∧
    (prepare wHasKey wHasKey "Item number").isOk = true := by
  constructor
  · have h := (prepare_key_check wMissOld wHasKey "Item number").1 (by decide)
    refine h.trans ?_
    exact congrArg Except.error (by decide)
  · obtain ⟨res, hres⟩ :=
      (prepare_key_check wHasKey wHasKey "Item number").2 (by decide) (by decide)
    rw [hres]
    rfl

/-! ### Helper lemmas: sorting, key sets and row access -/

/-- Insertion keeps exactly the inserted element and the old ones. -/
theorem insertSorted_perm (s : String) :
    ∀ l : List String, (insertSorted s l).Perm (s :: l) := by
  intro l
  induction l with
  | nil => exact List.Perm.refl _
  | cons t rest ih =>
    by_cases h : strLe s t = true
    · rw [insertSorted, if_pos h]
    · rw [insertSorted, if_neg h]
      exact (List.Perm.cons t ih).trans (List.Perm.swap s t rest)

/-- Sorting is a permutation. -/
theorem sortStr_perm : ∀ l : List String, (sortStr l).Perm l := by
  intro l
  induction l with
  | nil => exact List.Perm.refl _
  | cons s rest ih =>
    exact (insertSorted_perm s (sortStr rest)).trans (List.Perm.cons s ih)

/-- The added keys are exactly the keys of the new frame absent from the old
frame. -/
theorem mem_newOnlyKeys (o n : ITable) (k : String) :
    k ∈ newOnlyKeys o n ↔ k ∈ n.keys ∧ k ∉ o.keys := by
  unfold newOnlyKeys
  rw [(sortStr_perm _).mem_iff, List.mem_dedup, List.mem_filter]
  simp

/-- The added keys are pairwise distinct. -/
theorem nodup_newOnlyKeys (o n : ITable) : (newOnlyKeys o n).Nodup :=
  ((sortStr_perm _).nodup_iff).mpr (List.nodup_dedup _)

/-- Rows selected by `loc` come from the frame and carry a selected key. -/
theorem mem_selectRows (n : ITable) (p : String × Row) :
    ∀ ks : List String, p ∈ selectRows n ks → p ∈ n.rows ∧ p.1 ∈ ks := by
  intro ks
  induction ks with
  | nil => intro h; simp [selectRows] at h
  | cons k rest ih =>
    intro h
    rw [selectRows] at h
    rcases List.mem_append.mp h with h | h
    · rcases List.mem_filter.mp h with ⟨hm, hk⟩
      have : p.1 = k := by simpa using hk
      exact ⟨hm, this ▸ List.mem_cons_self _ _⟩
    · rcases ih h with ⟨hm, hk⟩
      exact ⟨hm, List.mem_cons_of_mem _ hk⟩

/-- Multiplicity of a row in the `loc` selection over distinct keys. -/
theorem countP_selectRows (n : ITable) (p : String × Row) :
    ∀ ks : List String, ks.Nodup →
      (selectRows n ks).countP (fun q => decide (q = p))
        = if p.1 ∈ ks then n.rows.countP (fun q => decide (q = p)) else 0 := by
  intro ks
  induction ks with
  | nil => intro _; simp [selectRows]
  | cons k rest ih =>
    intro hnd
    rcases List.nodup_cons.mp hnd with ⟨hk, hrest⟩
    rw [selectRows, List.countP_append, ih hrest]
    by_cases he : p.1 = k
    · have hfe : (n.rows.filter (fun q => decide (q.1 = k))).countP
          (fun q => decide (q = p)) = n.rows.countP (fun q => decide (q = p)) := by
        rw [List.countP_filter]
        refine List.countP_congr ?_
        intro x _
        constructor
        · intro hx
          simpa using (by simpa using hx : x = p ∧ x.1 = k).1
        · intro hx
          have hx2 : x = p := by simpa using hx
          simp [hx2, he]
      rw [hfe]
      have hpr : p.1 ∉ rest := he ▸ hk
      rw [if_neg hpr, if_pos (by rw [he]; exact List.mem_cons_self _ _)]
      omega
    · have h0 : (n.rows.filter (fun q => decide (q.1 = k))).countP
          (fun q => decide (q = p)) = 0 := by
        rw [List.countP_eq_zero]
        intro a hmem ha
        have ha2 : a = p := by simpa using ha
        exact he (ha2 ▸ (by simpa using (List.mem_filter.mp hmem).2 : a.1 = k))
      rw [h0]
      have hcond : (p.1 ∈ k :: rest) ↔ (p.1 ∈ rest) := by
        simp [List.mem_cons, he]
      rw [if_congr hcond rfl rfl]
      omega

/-- The `loc` selection over the added keys is, up to order, exactly the
new-only row set of the new frame. -/
theorem selectRows_newOnly_perm (o n : ITable) :
    (selectRows n (newOnlyKeys o n)).Perm
      (n.rows.filter (fun p => decide (p.1 ∉ o.keys))) := by
  rw [List.perm_iff_count]
  intro p
  show (selectRows n (newOnlyKeys o n)).countP (fun q => decide (q = p))
      = (n.rows.filter (fun p => decide (p.1 ∉ o.keys))).countP
          (fun q => decide (q = p))
  rw [countP_selectRows n p _ (nodup_newOnlyKeys o n), List.countP_filter]
  by_cases hmem : p ∈ n.rows
  · have hk1 : p.1 ∈ n.keys := List.mem_map_of_mem _ hmem
    by_cases ho : p.1 ∈ o.keys
    · rw [if_neg (by rw [mem_newOnlyKeys]; tauto), eq_comm, List.countP_eq_zero]
      intro a _ ha
      rcases (by simpa using ha : a = p ∧ a.1 ∉ o.keys) with ⟨rfl, hno⟩
      exact hno ho
    · rw [if_pos ((mem_newOnlyKeys o n p.1).mpr ⟨hk1, ho⟩)]
      refine List.countP_congr ?_
      intro x _
      constructor
      · intro hx
        have hx2 : x = p := by simpa using hx
        simp [hx2, ho]
      · intro hx
        simpa using (by simpa using hx : x = p ∧ x.1 ∉ o.keys).1
  · have h1 : n.rows.countP (fun q => decide (q = p)) = 0 := by
      rw [List.countP_eq_zero]
      intro a ha hq
      exact hmem ((by simpa using hq : a = p) ▸ ha)
    have h2 : n.rows.countP (fun a => decide (a = p) && decide (a.1 ∉ o.keys)) = 0 := by
      rw [List.countP_eq_zero]
      intro a ha hq
      rcases (by simpa using hq : a = p ∧ a.1 ∉ o.keys) with ⟨rfl, _⟩
      exact hmem ha
    rw [h2]
    split
    · exact h1
    · rfl

/-- `idxOf?` misses exactly the absent labels. -/
theorem idxOf?_eq_none_iff (x : String) :
    ∀ l : List String, idxOf? x l = none ↔ x ∉ l := by
  intro l
  induction l with
  | nil => simp [idxOf?]
  | cons c rest ih =>
    by_cases h : c = x
    · rw [idxOf?, if_pos h]
      simp [h]
    · rw [idxOf?, if_neg h]
      constructor
      · intro hn hm
        rcases List.mem_cons.mp hm with hm | hm
        · exact h hm.symm
        · exact (ih.mp (by cases he : idxOf? x rest <;> simp [he] at hn ⊢)) hm
      · intro hm
        rw [Option.map_eq_none', ih]
        exact fun hx => hm (List.mem_cons_of_mem _ hx)

/-- A found label position is within the column list. -/
theorem idxOf?_lt_length (x : String) :
    ∀ l : List String, ∀ i, idxOf? x l = some i → i < l.length := by
  intro l
  induction l with
  | nil => intro i h; simp [idxOf?] at h
  | cons c rest ih =>
    intro i h
    by_cases hc : c = x
    · rw [idxOf?, if_pos hc] at h
      cases h
      simp
    · rw [idxOf?, if_neg hc] at h
      rcases Option.map_eq_some'.mp h with ⟨j, hj, rfl⟩
      have := ih j hj
      simp only [List.length_cons]
      omega

/-- Writing a cell keeps the row length. -/
theorem setCell_length : ∀ (r : Row) (i : Nat) (v : Cell),
    (setCell r i v).length = r.length := by
  intro r
  induction r with
  | nil => intro i v; rfl
  | cons c rest ih =>
    intro i v
    cases i with
    | zero => rfl
    | succ j => simp [setCell, ih]

/-- Reading back a written cell (within bounds). -/
theorem cellAt_setCell_self : ∀ (r : Row) (i : Nat) (v : Cell),
    i < r.length → cellAt (setCell r i v) i = v := by
  intro r
  induction r with
  | nil => intro i v h; simp at h
  | cons c rest ih =>
    intro i v h
    cases i with
    | zero => rfl
    | succ j =>
      simp only [setCell, cellAt]
      exact ih j v (by simpa using h)

/-! ### Theorems: delta filter (C1, C5, C10) -/

/-- With no added keys the filter returns the empty table with the new
frame's columns behind a leading `Item number`. -/
theorem new_rows_empty_branch (o n : ITable) (he : newOnlyKeys o n = []) :
    new_rows_with_delay o n =
      { cols := "Item number" ::
          n.cols.filter (fun c => decide (c ≠ "Item number")),
        rows := [] } := by
  simp [new_rows_with_delay, he]

/-- With added keys present the output restores the index as the leading
column in front of the new frame's columns (in both delay branches). -/
theorem new_rows_cols_nonempty (o n : ITable) (hne : ¬ newOnlyKeys o n = []) :
    (new_rows_with_delay o n).cols = n.keyName :: n.cols := by
  simp only [new_rows_with_delay]
  rw [if_neg hne]
  cases h : idxOf? "Delay (days)" n.cols <;> rfl

/-- Output rows when the new frame has no `Delay (days)` column: the `loc`
selection, un-indexed, with no numeric filtering. -/
theorem new_rows_rows_none (o n : ITable) (hne : ¬ newOnlyKeys o n = [])
    (hnone : idxOf? "Delay (days)" n.cols = none) :
    (new_rows_with_delay o n).rows
      = (selectRows n (newOnlyKeys o n)).map unindexRow := by
  simp only [new_rows_with_delay]
  rw [if_neg hne]
  rw [hnone]

/-- Output rows when the new frame has a `Delay (days)` column at position
`i`: coerce that column on the selected rows, keep the strictly positive
ones, un-index. -/
theorem new_rows_rows_some (o n : ITable) (i : Nat)
    (hne : ¬ newOnlyKeys o n = [])
    (hidx : idxOf? "Delay (days)" n.cols = some i) :
    (new_rows_with_delay o n).rows
      = (((selectRows n (newOnlyKeys o n)).map (fun p =>
            (p.1, setCell p.2 i (Cell.flt (delayNum (cellAt p.2 i)))))).filter
          (fun p => decide (0 < cellRat (cellAt p.2 i)))).map unindexRow := by
  simp only [new_rows_with_delay]
  rw [if_neg hne]
  rw [hidx]

/-- Decomposition of an output row in the delay-filtering branch: it is an
un-indexed new-only row of the new frame whose delay cell has been replaced
by its strictly positive numeric coercion. -/
theorem mem_new_rows_decomp (o n : ITable) (i : Nat)
    (hidx : idxOf? "Delay (days)" n.cols = some i)
    (hwf : ∀ p ∈ n.rows, (Prod.snd p).length = n.cols.length)
    (hne : ¬ newOnlyKeys o n = [])
    {r : Row} (hr : r ∈ (new_rows_with_delay o n).rows) :
    ∃ p ∈ n.rows, p.1 ∈ newOnlyKeys o n ∧
      r = Cell.str p.1 :: setCell p.2 i (Cell.flt (delayNum (cellAt p.2 i))) ∧
      0 < delayNum (cellAt p.2 i) := by
  rw [new_rows_rows_some o n i hne hidx] at hr
  rcases List.mem_map.mp hr with ⟨p, hp, rfl⟩
  rcases List.mem_filter.mp hp with ⟨hpc, hpos⟩
  rcases List.mem_map.mp hpc with ⟨p0, hp0, rfl⟩
  rcases mem_selectRows n p0 _ hp0 with ⟨hp0mem, hp0key⟩
  have hlen : i < p0.2.length := by
    rw [hwf p0 hp0mem]
    exact idxOf?_lt_length _ _ _ hidx
  have hcell : cellAt (setCell p0.2 i (Cell.flt (delayNum (cellAt p0.2 i)))) i
      = Cell.flt (delayNum (cellAt p0.2 i)) := cellAt_setCell_self _ _ _ hlen
  have hpos2 : 0 < delayNum (cellAt p0.2 i) := by
    have := of_decide_eq_true hpos
    rw [hcell] at this
    exact this
  exact ⟨p0, hp0mem, hp0key, rfl, hpos2⟩

/-- The number of key occurrences in a duplicate-free list is one. -/
theorem countP_eq_one_of_nodup_mem {k : String} :
    ∀ l : List String, l.Nodup → k ∈ l →
      l.countP (fun x => decide (x = k)) = 1 := by
  intro l
  induction l with
  | nil => intro _ h; simp at h
  | cons a as ih =>
    intro hnd hm
    rcases List.nodup_cons.mp hnd with ⟨ha, has⟩
    rw [List.countP_cons]
    rcases List.mem_cons.mp hm with rfl | hm
    · have h0 : as.countP (fun x => decide (x = k)) = 0 := by
        rw [List.countP_eq_zero]
        intro x hx hdx
        exact ha ((by simpa using hdx : x = k) ▸ hx)
      simp [h0]
    · have hak : a ≠ k := fun h => ha (h ▸ hm)
      rw [ih has hm]
      simp [hak]

/-- C5: when the new frame has no `Delay (days)` column, the output rows are
exactly the new-only rows of the new frame, un-indexed, with no numeric
filtering — in particular (for a deduplicated new frame) exactly one output
row per key present in the new frame and absent from the old one. -/
theorem new_rows_no_delay_spec (o n : ITable)
    (hd : "Delay (days)" ∉ n.cols) (hnd : n.keys.Nodup) :
    (new_rows_with_delay o n).rows.Perm
      ((n.rows.filter (fun p => decide (p.1 ∉ o.keys))).map unindexRow) ∧
    ∀ k, k ∈ n.keys → k ∉ o.keys →
      ((new_rows_with_delay o n).rows.filter
        (fun r => decide (r.head? = some (Cell.str k)))).length = 1 := by
  have hnone : idxOf? "Delay (days)" n.cols = none :=
    (idxOf?_eq_none_iff _ _).mpr hd
  have hperm : (new_rows_with_delay o n).rows.Perm
      ((n.rows.filter (fun p => decide (p.1 ∉ o.keys))).map unindexRow) := by
    by_cases hempty : newOnlyKeys o n = []
    · have hfilter : n.rows.filter (fun p => decide (p.1 ∉ o.keys)) = [] := by
        rw [List.filter_eq_nil_iff]
        intro p hp hdec
        have hmem : p.1 ∈ newOnlyKeys o n :=
          (mem_newOnlyKeys o n p.1).mpr
            ⟨List.mem_map_of_mem _ hp, by simpa using hdec⟩
        rw [hempty] at hmem
        exact absurd hmem (List.not_mem_nil _)
      rw [new_rows_empty_branch o n hempty, hfilter]
      exact List.Perm.refl _
    · rw [new_rows_rows_none o n hempty hnone]
      exact (selectRows_newOnly_perm o n).map unindexRow
  refine ⟨hperm, ?_⟩
  intro k hk hko
  have hcongr : n.rows.countP
      (fun p => decide ((unindexRow p).head? = some (Cell.str k))
        && decide (p.1 ∉ o.keys))
      = n.rows.countP (fun p => decide (p.1 = k)) := by
    refine List.countP_congr ?_
    intro p _
    constructor
    · intro hx
      have hx2 : p.1 = k ∧ p.1 ∉ o.keys := by
        simpa [unindexRow] using hx
      simpa using hx2.1
    · intro hx
      have hx2 : p.1 = k := by simpa using hx
      rw [Bool.and_eq_true]
      refine ⟨?_, ?_⟩
      · simp [unindexRow, hx2]
      · rw [hx2]
        simpa using hko
  have hone : n.rows.countP (fun p => decide (p.1 = k)) = 1 := by
    have hmap : n.rows.countP (fun p => decide (p.1 = k))
        = n.keys.countP (fun x => decide (x = k)) :=
      (List.countP_map (fun x => decide (x = k))
        (fun p : String × Row => p.1) n.rows).symm
    rw [hmap]
    exact countP_eq_one_of_nodup_mem n.keys hnd hk
  have hstep : n.rows.countP
      (fun p => decide ((unindexRow p).head? = some (Cell.str k))
        && decide (p.1 ∉ o.keys)) = 1 := by
    rw [hcongr]
    exact hone
  rw [← List.countP_eq_length_filter,
    hperm.countP_eq (fun r => decide (r.head? = some (Cell.str k))),
    List.countP_map, List.countP_filter]
  exact hstep

/-- C1: every output key of the delta filter lies in (new keys) minus (old
keys); when the new frame has a `Delay (days)` column every output row's
delay value, numerically coerced, is strictly greater than 0; and the delay
column is missing from the output only when missing from the new input. -/
theorem new_rows_invariant (o n : ITable)
    (hk : n.keyName ≠ "Delay (days)")
    (hwf : ∀ p ∈ n.rows, (Prod.snd p).length = n.cols.length) :
    (∀ r ∈ (new_rows_with_delay o n).rows,
      ∃ k, r.head? = some (Cell.str k) ∧ k ∈ n.keys ∧ k ∉ o.keys) ∧
    ("Delay (days)" ∈ n.cols →
      ∀ r ∈ (new_rows_with_delay o n).rows,
        0 < delayNum (getCell (new_rows_with_delay o n).cols r "Delay (days)")) ∧
    ("Delay (days)" ∈ n.cols → "Delay (days)" ∈ (new_rows_with_delay o n).cols) := by
  by_cases hempty : newOnlyKeys o n = []
  · rw [new_rows_empty_branch o n hempty]
    refine ⟨?_, ?_, ?_⟩
    · intro r hr
      simp at hr
    · intro _ r hr
      simp at hr
    · intro hdel
      exact List.mem_cons_of_mem _ (List.mem_filter.mpr ⟨hdel, by decide⟩)
  · cases hidx : idxOf? "Delay (days)" n.cols with
    | none =>
      have hd : "Delay (days)" ∉ n.cols := (idxOf?_eq_none_iff _ _).mp hidx
      refine ⟨?_, ?_, ?_⟩
      · intro r hr
        rw [new_rows_rows_none o n hempty hidx] at hr
        rcases List.mem_map.mp hr with ⟨p, hp, rfl⟩
        rcases mem_selectRows n p _ hp with ⟨hpm, hpk⟩
        rcases (mem_newOnlyKeys o n p.1).mp hpk with ⟨h1, h2⟩
        exact ⟨p.1, rfl, h1, h2⟩
      · intro hdel
        exact absurd hdel hd
      · intro hdel
        exact absurd hdel hd
    | some i =>
      refine ⟨?_, ?_, ?_⟩
      · intro r hr
        rcases mem_new_rows_decomp o n i hidx hwf hempty hr with
          ⟨p, hpm, hpk, rfl, hpos⟩
        rcases (mem_newOnlyKeys o n p.1).mp hpk with ⟨h1, h2⟩
        exact ⟨p.1, rfl, h1, h2⟩
      · intro hdel r hr
        rcases mem_new_rows_decomp o n i hidx hwf hempty hr with
          ⟨p, hpm, hpk, rfl, hpos⟩
        have hlen : i < p.2.length := by
          rw [hwf p hpm]
          exact idxOf?_lt_length _ _ _ hidx
        have hidx2 : idxOf? "Delay (days)" ((new_rows_with_delay o n).cols)
            = some (i + 1) := by
          rw [new_rows_cols_nonempty o n hempty, idxOf?, if_neg hk, hidx]
          rfl
        have hcell : getCell (new_rows_with_delay o n).cols
            (Cell.str p.1 :: setCell p.2 i (Cell.flt (delayNum (cellAt p.2 i))))
            "Delay (days)" = Cell.flt (delayNum (cellAt p.2 i)) := by
          simp only [getCell, hidx2]
          show cellAt (setCell p.2 i (Cell.flt (delayNum (cellAt p.2 i)))) i = _
          exact cellAt_setCell_self _ _ _ hlen
        rw [hcell]
        exact hpos
      · intro hdel
        rw [new_rows_cols_nonempty o n hempty]
        exact List.mem_cons_of_mem _ hdel

/-- A concrete prepared pair with a delay column: key `1` is shared, key `2`
is new with delay 5, key `3` is new with a non-numeric delay. -/
def wOldIdx : ITable :=
  { keyName := "Item number", cols := ["Delay (days)"],
    rows := [("1", [Cell.intv 3])] }

/-- The concrete new frame paired with `wOldIdx`. -/
def wNewIdx : ITable :=
  { keyName := "Item number", cols := ["Delay (days)"],
    rows := [("1", [Cell.intv 3]), ("2", [Cell.intv 5]),
             ("3", [Cell.str "x"])] }

/-- Witness for C1 at the concrete prepared pair: the surviving output row
(key `2`, coerced delay 5) has a strictly positive delay value. -/
theorem new_rows_invariant_witness :
    0 < delayNum (getCell (new_rows_with_delay wOldIdx wNewIdx).cols
      (Cell.str "2" :: [Cell.flt 5]) "Delay (days)") :=
  (new_rows_invariant wOldIdx wNewIdx (by decide) (by decide)).2.1
    (by decide) _ (by decide)

/-- A concrete prepared pair without a delay column. -/
def wOldIdxQ : ITable :=
  { keyName := "Item number", cols := ["Qty"],
    rows := [("1", [Cell.intv 1])] }

/-- The concrete new frame paired with `wOldIdxQ`. -/
def wNewIdxQ : ITable :=
  { keyName := "Item number", cols := ["Qty"],
    rows := [("1", [Cell.intv 1]), ("2", [Cell.intv 7])] }

/-- Witness for C5 at the concrete delay-free prepared pair: the new-only
key `2` yields exactly one output row. -/
theorem new_rows_no_delay_spec_witness :
    ((new_rows_with_delay wOldIdxQ wNewIdxQ).rows.filter
      (fun r => decide (r.head? = some (Cell.str "2")))).length = 1 :=
  (new_rows_no_delay_spec wOldIdxQ wNewIdxQ (by decide) (by decide)).2
    "2" (by decide) (by decide)

/-- C10 (implicit): in the delay-filtering branch every output row carries
the numerically coerced delay value of its source row (hence a number,
strictly positive), and a new-only row whose original delay coerces to 0
(non-numeric or missing) contributes no output row. -/
theorem new_rows_coerced_delay_spec (o n : ITable)
    (hk : n.keyName ≠ "Delay (days)")
    (hwf : ∀ p ∈ n.rows, (Prod.snd p).length = n.cols.length)
    (hdel : "Delay (days)" ∈ n.cols) (hnd : n.keys.Nodup) :
    (∀ r ∈ (new_rows_with_delay o n).rows,
      ∃ p ∈ n.rows, r.head? = some (Cell.str p.1) ∧
        getCell (new_rows_with_delay o n).cols r "Delay (days)"
          = Cell.flt (delayNum (getCell n.cols p.2 "Delay (days)")) ∧
        0 < delayNum (getCell n.cols p.2 "Delay (days)")) ∧
    (∀ p ∈ n.rows, p.1 ∉ o.keys →
      delayNum (getCell n.cols p.2 "Delay (days)") = 0 →
      ∀ r ∈ (new_rows_with_delay o n).rows,
        r.head? ≠ some (Cell.str p.1)) := by
  cases hidx : idxOf? "Delay (days)" n.cols with
  | none => exact absurd hdel ((idxOf?_eq_none_iff _ _).mp hidx)
  | some i =>
    have hget : ∀ p : String × Row,
        getCell n.cols p.2 "Delay (days)" = cellAt p.2 i := by
      intro p
      simp only [getCell, hidx]
    by_cases hempty : newOnlyKeys o n = []
    · constructor
      · intro r hr
        rw [new_rows_empty_branch o n hempty] at hr
        simp at hr
      · intro p _ _ _ r hr
        rw [new_rows_empty_branch o n hempty] at hr
        simp at hr
    · constructor
      · intro r hr
        rcases mem_new_rows_decomp o n i hidx hwf hempty hr with
          ⟨p, hpm, hpk, rfl, hpos⟩
        have hlen : i < p.2.length := by
          rw [hwf p hpm]
          exact idxOf?_lt_length _ _ _ hidx
        have hidx2 : idxOf? "Delay (days)" ((new_rows_with_delay o n).cols)
            = some (i + 1) := by
          rw [new_rows_cols_nonempty o n hempty, idxOf?, if_neg hk, hidx]
          rfl
        refine ⟨p, hpm, rfl, ?_, ?_⟩
        · rw [hget]
          simp only [getCell, hidx2]
          show cellAt (setCell p.2 i (Cell.flt (delayNum (cellAt p.2 i)))) i = _
          exact cellAt_setCell_self _ _ _ hlen
        · rw [hget]
          exact hpos
      · intro p hpm hpo h0 r hr hhead
        rcases mem_new_rows_decomp o n i hidx hwf hempty hr with
          ⟨p0, hp0m, hp0k, rfl, hpos⟩
        have he : p0.1 = p.1 := by simpa using hhead
        have hpp : p0 = p := List.inj_on_of_nodup_map hnd hp0m hpm he
        rw [hget] at h0
        rw [hpp, h0] at hpos
        exact lt_irrefl 0 hpos

/-- Witness for C10 at the concrete prepared pair: the new-only row with
key `3` has a non-numeric delay (coerced to 0), so the surviving output row
does not carry its key. -/
theorem new_rows_coerced_delay_spec_witness :
    (Cell.str "2" :: [Cell.flt 5] : Row).head? ≠ some (Cell.str "3") :=
  (new_rows_coerced_delay_spec wOldIdx wNewIdx
      (by decide) (by decide) (by decide) (by decide)).2
    ("3", [Cell.str "x"]) (by decide) (by decide) (by decide) _ (by decide)

/-! ### Theorems: Excel-safe headers (C6) -/

/-- Decoding after appending one digit. -/
theorem decDigits_append_one (xs : List Char) (c : Char) :
    decDigits (xs ++ [c]) = 10 * decDigits xs + (c.toNat - 48) := by
  unfold decDigits
  rw [List.foldl_append]
  rfl

/-- The fuel-indexed digit renderer round-trips through decoding. -/
theorem decode_natDigitsAux :
    ∀ fuel n : Nat, n ≤ fuel → decDigits (natDigitsAux fuel n) = n := by
  intro fuel
  induction fuel with
  | zero =>
    intro n h
    have hn : n = 0 := by omega
    subst hn
    rfl
  | succ fuel ih =>
    intro n h
    cases n with
    | zero => rfl
    | succ m =>
      show decDigits (natDigitsAux fuel ((m + 1) / 10)
        ++ [digitCh ((m + 1) % 10)]) = m + 1
      have hdiv : (m + 1) / 10 ≤ fuel := by
        have := Nat.div_lt_self (Nat.succ_pos m) (by norm_num : (1 : Nat) < 10)
        omega
      rw [decDigits_append_one, ih _ hdiv]
      have hd : (digitCh ((m + 1) % 10)).toNat - 48 = (m + 1) % 10 := by
        have hlt : (m + 1) % 10 < 10 := Nat.mod_lt _ (by omega)
        generalize hg : (m + 1) % 10 = d at hlt ⊢
        interval_cases d <;> decide
      rw [hd]
      omega

/-- Equal character data means equal strings. -/
theorem str_data_inj {a b : String} (h : a.data = b.data) : a = b := by
  cases a
  cases b
  exact congrArg String.mk h

/-- String append concatenates the character data. -/
theorem str_data_append (a b : String) : (a ++ b).data = a.data ++ b.data := rfl

/-- Decoding the rendered numeral recovers the number. -/
theorem natStr_decode : ∀ n : Nat, decDigits (natStr n).data = n := by
  intro n
  cases n with
  | zero => rfl
  | succ m =>
    show decDigits (natDigitsAux (m + 1) (m + 1)) = m + 1
    exact decode_natDigitsAux (m + 1) (m + 1) le_rfl

/-- Decimal rendering is injective. -/
theorem natStr_inj {m n : Nat} (h : natStr m = natStr n) : m = n := by
  have h2 := congrArg (fun s => decDigits s.data) h
  simp only at h2
  rw [natStr_decode, natStr_decode] at h2
  exact h2

/-- The collision candidates `base_m` are pairwise distinct. -/
theorem baseN_inj (base : String) :
    Function.Injective (fun m : Nat => base ++ "_" ++ natStr m) := by
  intro m n h
  apply natStr_inj
  apply str_data_inj
  have h2 := congrArg String.data h
  rw [str_data_append, str_data_append] at h2
  exact List.append_cancel_left h2

/-- The rendered numeral consists of decimal digit characters. -/
theorem natDigitsAux_digits :
    ∀ fuel n : Nat, ∀ c ∈ natDigitsAux fuel n, c.isDigit = true := by
  intro fuel
  induction fuel with
  | zero => intro n c hc; simp [natDigitsAux] at hc
  | succ fuel ih =>
    intro n c hc
    cases n with
    | zero => simp [natDigitsAux] at hc
    | succ m =>
      rw [natDigitsAux] at hc
      rcases List.mem_append.mp hc with hc | hc
      · exact ih _ c hc
      · have hc2 : c = digitCh ((m + 1) % 10) := by simpa using hc
        subst hc2
        have hlt : (m + 1) % 10 < 10 := Nat.mod_lt _ (by omega)
        generalize hg : (m + 1) % 10 = d at hlt ⊢
        interval_cases d <;> decide

/-- Every character of a rendered numeral is a digit. -/
theorem natStr_digits (n : Nat) : ∀ c ∈ (natStr n).data, c.isDigit = true := by
  cases n with
  | zero => intro c hc; simp [natStr] at hc; simp [hc]
  | succ m =>
    intro c hc
    exact natDigitsAux_digits (m + 1) (m + 1) c hc

/-- The rendered numeral is never the empty string. -/
theorem natStr_data_ne_nil : ∀ n : Nat, (natStr n).data ≠ [] := by
  intro n
  cases n with
  | zero => decide
  | succ m =>
    show natDigitsAux m ((m + 1) / 10) ++ [digitCh ((m + 1) % 10)] ≠ []
    simp

/-- Digit characters are never in the illegal character class. -/
theorem isDigit_not_excelBad (c : Char) (h : c.isDigit = true) :
    excelBadChar c = false := by
  by_contra hbad
  rw [Bool.not_eq_false] at hbad
  simp only [excelBadChar, Bool.or_eq_true, decide_eq_true_eq] at hbad
  rcases hbad with (((((rfl | rfl) | rfl) | rfl) | rfl) | rfl) | rfl <;>
    exact absurd h (by decide)

/-- The collision loop exits outside `seen` whenever the current name is
fresh or some in-budget candidate is fresh. -/
theorem uniquifyGo_avoid (seen : List String) (base : String) :
    ∀ fuel n name,
      (name ∉ seen ∨
        ∃ m, n < m ∧ m ≤ n + fuel ∧ (base ++ "_" ++ natStr m) ∉ seen) →
      uniquifyGo seen base fuel n name ∉ seen := by
  intro fuel
  induction fuel with
  | zero =>
    intro n name h
    rcases h with h | ⟨m, h1, h2, _⟩
    · exact h
    · omega
  | succ fuel ih =>
    intro n name h
    by_cases hn : name ∈ seen
    · rw [uniquifyGo, if_pos hn]
      rcases h with h | ⟨m, h1, h2, hm⟩
      · exact absurd hn h
      · by_cases hm1 : m = n + 1
        · exact ih (n + 1) _ (Or.inl (hm1 ▸ hm))
        · exact ih (n + 1) _ (Or.inr ⟨m, by omega, by omega, hm⟩)
    · rw [uniquifyGo, if_neg hn]
      exact hn

/-- The loop's fuel suffices: pairwise distinct candidates cannot all live
in the finite `seen` set, so `uniquify` always returns a fresh name. -/
theorem uniquify_not_mem (seen : List String) (base : String) :
    uniquify seen base ∉ seen := by
  refine uniquifyGo_avoid seen base (seen.length + 2) 1 base ?_
  by_cases hb : base ∈ seen
  · right
    by_contra hall
    push_neg at hall
    have hsub : ∀ x ∈ (List.range' 2 (seen.length + 2)).map
        (fun m => base ++ "_" ++ natStr m), x ∈ seen := by
      intro x hx
      rcases List.mem_map.mp hx with ⟨m, hm, rfl⟩
      rcases List.mem_range'.mp hm with ⟨j, hj, rfl⟩
      exact hall (2 + 1 * j) (by omega) (by omega)
    have hnodup : ((List.range' 2 (seen.length + 2)).map
        (fun m => base ++ "_" ++ natStr m)).Nodup :=
      List.Nodup.map (baseN_inj base) (List.nodup_range' 2 (seen.length + 2))
    have h1 := List.toFinset_card_of_nodup hnodup
    have hsubF : ((List.range' 2 (seen.length + 2)).map
        (fun m => base ++ "_" ++ natStr m)).toFinset ⊆ seen.toFinset := by
      intro x hx
      exact List.mem_toFinset.mpr (hsub x (List.mem_toFinset.mp hx))
    have h3 := Finset.card_le_card hsubF
    have h4 := List.toFinset_card_le seen
    have h5 : ((List.range' 2 (seen.length + 2)).map
        (fun m => base ++ "_" ++ natStr m)).length = seen.length + 2 := by
      simp
    omega
  · exact Or.inl hb

/-- The loop returns either its input name or some suffixed candidate. -/
theorem uniquifyGo_shape (seen : List String) (base : String) :
    ∀ fuel n name, uniquifyGo seen base fuel n name = name ∨
      ∃ m, uniquifyGo seen base fuel n name = base ++ "_" ++ natStr m := by
  intro fuel
  induction fuel with
  | zero => intro n name; exact Or.inl rfl
  | succ fuel ih =>
    intro n name
    by_cases hn : name ∈ seen
    · rw [uniquifyGo, if_pos hn]
      rcases ih (n + 1) (base ++ "_" ++ natStr (n + 1)) with h | h
      · exact Or.inr ⟨n + 1, h⟩
      · exact Or.inr h
    · rw [uniquifyGo, if_neg hn]
      exact Or.inl rfl

/-- Character replacement removes every illegal character. -/
theorem sanitizeHeader_no_bad (s : String) :
    ∀ c ∈ (sanitizeHeader s).data, excelBadChar c = false := by
  intro c hc
  rcases List.mem_map.mp hc with ⟨x, _, rfl⟩
  by_cases hb : excelBadChar x = true
  · rw [if_pos hb]
    decide
  · rw [if_neg hb]
    exact Bool.eq_false_iff.mpr hb

/-- Character replacement keeps a nonempty header nonempty. -/
theorem sanitizeHeader_ne_empty {s : String} (h : s ≠ "") :
    sanitizeHeader s ≠ "" := by
  intro he
  apply h
  apply str_data_inj
  have h2 : s.data.map
      (fun c => if excelBadChar c then '_' else c) = [] := congrArg String.data he
  exact List.map_eq_nil_iff.mp h2

/-- The blank-header replacement is never the empty string. -/
theorem columnName_ne_empty (i : Nat) : ("Column" ++ natStr i) ≠ "" := by
  intro h
  have h2 := congrArg String.data h
  rw [str_data_append] at h2
  rcases List.append_eq_nil.mp h2 with ⟨h3, _⟩
  exact absurd h3 (by decide)

/-- The uniquified name of a nonempty, clean base is nonempty and clean. -/
theorem uniquify_props (seen : List String) (base : String)
    (hne : base ≠ "") (hclean : ∀ c ∈ base.data, excelBadChar c = false) :
    uniquify seen base ≠ "" ∧
    ∀ c ∈ (uniquify seen base).data, excelBadChar c = false := by
  rcases uniquifyGo_shape seen base (seen.length + 2) 1 base with h | ⟨m, h⟩
  · rw [uniquify, h]
    exact ⟨hne, hclean⟩
  · rw [uniquify, h]
    constructor
    · intro he
      have h2 := congrArg String.data he
      rw [str_data_append] at h2
      rcases List.append_eq_nil.mp h2 with ⟨_, h4⟩
      exact natStr_data_ne_nil m h4
    · intro c hc
      rw [str_data_append, str_data_append] at hc
      rcases List.mem_append.mp hc with hc | hc
      · rcases List.mem_append.mp hc with hc | hc
        · exact hclean c hc
        · have hcu : c = '_' := by simpa using hc
          subst hcu
          decide
      · exact isDigit_not_excelBad c (natStr_digits m c hc)

/-- Invariant of the per-column loop of `_excel_safe_headers`: one output
name per column; names pairwise distinct and avoiding the already-seen set;
every name nonempty and free of illegal characters. -/
theorem excelGo_spec :
    ∀ (cols : List String) (i : Nat) (seen : List String),
      (excelGo i seen cols).length = cols.length ∧
      (excelGo i seen cols).Nodup ∧
      (∀ nm ∈ excelGo i seen cols, nm ∉ seen) ∧
      (∀ nm ∈ excelGo i seen cols,
        nm ≠ "" ∧ ∀ ch ∈ nm.data, excelBadChar ch = false) := by
  intro cols
  induction cols with
  | nil =>
    intro i seen
    refine ⟨rfl, List.Pairwise.nil, ?_, ?_⟩ <;> intro nm hnm <;>
      simp [excelGo] at hnm
  | cons c rest ih =>
    intro i seen
    have hunfold : excelGo i seen (c :: rest)
        = (uniquify seen (sanitizeHeader
            (if pyStrip c = "" then "Column" ++ natStr i else pyStrip c)))
          :: excelGo (i + 1)
            ((uniquify seen (sanitizeHeader
              (if pyStrip c = "" then "Column" ++ natStr i else pyStrip c)))
              :: seen) rest := by
      simp only [excelGo]
    set base0 := (if pyStrip c = "" then "Column" ++ natStr i else pyStrip c)
      with hb0
    set name := uniquify seen (sanitizeHeader base0) with hn
    rw [hunfold]
    obtain ⟨hlen, hnodup, hfresh, hgood⟩ := ih (i + 1) (name :: seen)
    have hbase0_ne : base0 ≠ "" := by
      rw [hb0]
      by_cases h : pyStrip c = ""
      · rw [if_pos h]
        exact columnName_ne_empty i
      · rw [if_neg h]
        exact h
    have hname_props := uniquify_props seen (sanitizeHeader base0)
      (sanitizeHeader_ne_empty hbase0_ne) (sanitizeHeader_no_bad base0)
    have hname_notmem : name ∉ seen := uniquify_not_mem seen (sanitizeHeader base0)
    refine ⟨?_, ?_, ?_, ?_⟩
    · simp [hlen]
    · refine List.Pairwise.cons ?_ hnodup
      intro b hb
      exact fun heq => (hfresh b hb) (heq ▸ List.mem_cons_self _ _)
    · intro nm hnm
      rcases List.mem_cons.mp hnm with rfl | hnm
      · exact hname_notmem
      · exact fun hmem => (hfresh nm hnm) (List.mem_cons_of_mem _ hmem)
    · intro nm hnm
      rcases List.mem_cons.mp hnm with rfl | hnm
      · exact hname_props
      · exact hgood nm hnm

/-- C6: header sanitization produces one header per column with no empty
header, no duplicate headers, and no illegal character; blanks become
`Column<i>` (1-based), illegal characters become `_`, and collisions get
`_2`, `_3`, … appended (as in the per-column step of `excelGo`). -/
theorem excel_safe_headers_spec (cols : List String) :
    (excelSafeCols cols).length = cols.length ∧
    (excelSafeCols cols).Nodup ∧
    ∀ nm ∈ excelSafeCols cols,
      nm ≠ "" ∧ ∀ ch ∈ nm.data, excelBadChar ch = false := by
  obtain ⟨h1, h2, _, h4⟩ := excelGo_spec cols 1 []
  exact ⟨h1, h2, h4⟩

/-- Witness for C6 at a concrete header list with a bad character, a blank
and a collision (the sanitized headers are `a_b`, `Column2`, `a_b_2`). -/
theorem excel_safe_headers_spec_witness :
    (excelSafeCols ["a[b", "", "a_b"]).Nodup ∧ ("a_b_2" : String) ≠ "" :=
  ⟨(excel_safe_headers_spec ["a[b", "", "a_b"]).2.1,
   ((excel_safe_headers_spec ["a[b", "", "a_b"]).2.2 "a_b_2" (by decide)).1⟩

/-! ### Theorems: workbook table regions (C7) and export framing (C9) -/

/-- `add_table` attaches a full-extent region exactly when the sheet has at
least one data row and one column; the header row is always present. -/
theorem addTableRegion_sheetDims (t : Table) :
    (addTableRegion (sheetDims t)
      = if 1 ≤ t.rows.length ∧ 1 ≤ t.cols.length
        then some (1 + t.rows.length, t.cols.length) else none) ∧
    1 ≤ (sheetDims t).1 := by
  constructor
  · by_cases hc : t.cols.length = 0
    · rw [sheetDims, if_pos hc, addTableRegion,
        if_neg (by simp), if_neg (by omega)]
    · rw [sheetDims, if_neg hc]
      by_cases hr : t.rows.length = 0
      · rw [addTableRegion, if_neg (by simp [hr]), if_neg (by omega)]
      · rw [addTableRegion, if_pos ⟨by omega, by omega⟩,
          if_pos ⟨by omega, by omega⟩]
  · by_cases hc : t.cols.length = 0 <;> simp [sheetDims, hc]

/-- C7: in the exported workbook every sheet carries a table region iff its
table has at least one data row and one column; with zero data rows there is
no region but the header row remains; with at least one data row (and a
column) the region spans the full header-plus-data extent. -/
theorem workbook_table_region_spec (st : PdState) (rOldIdx rNewIdx rAdded : Nat) :
    ∀ e ∈ (to_excel_bytes_pd st rOldIdx rNewIdx rAdded).2.sheets,
      (e.2.2 = if 1 ≤ e.2.1.rows.length ∧ 1 ≤ e.2.1.cols.length
        then some (1 + e.2.1.rows.length, e.2.1.cols.length) else none) ∧
      1 ≤ (sheetDims e.2.1).1 := by
  intro e he
  obtain ⟨stF, r1, r2, r3, hsheets⟩ :
      ∃ stF r1 r2 r3, (to_excel_bytes_pd st rOldIdx rNewIdx rAdded).2.sheets
        = [mkSheet stF "Oude_invoer" r1, mkSheet stF "Nieuwe_invoer" r2,
           mkSheet stF "Nieuwe_rijen_Delay_gt_0" r3] := ⟨_, _, _, _, rfl⟩
  rw [hsheets] at he
  rcases List.mem_cons.mp he with rfl | he
  · exact addTableRegion_sheetDims _
  · rcases List.mem_cons.mp he with rfl | he
    · exact addTableRegion_sheetDims _
    · rcases List.mem_cons.mp he with rfl | he
      · exact addTableRegion_sheetDims _
      · simp at he

/-- A concrete heap: the two indexed frames and the added-delay frame. -/
def wSt : PdState :=
  { heap := [Frame.idx wOldIdx, Frame.idx wNewIdx,
             Frame.plain { cols := ["Item number", "Delay (days)"],
                           rows := [[Cell.str "2", Cell.flt 5]] }] }

/-- The first sheet of the export from the concrete heap. -/
def wSheet0 : String × Table × Option (Nat × Nat) :=
  ("Oude_invoer",
   { cols := ["Item number", "Delay (days)"],
     rows := [[Cell.str "1", Cell.intv 3]] },
   some (2, 2))

set_option maxHeartbeats 1000000 in
/-- Witness for C7 at the concrete heap: its first sheet (one data row, two
columns) carries the full-extent region `(2, 2)`. -/
theorem workbook_table_region_spec_witness :
    (wSheet0.2.2 = if 1 ≤ wSheet0.2.1.rows.length ∧ 1 ≤ wSheet0.2.1.cols.length
      then some (1 + wSheet0.2.1.rows.length, wSheet0.2.1.cols.length)
      else none) ∧
    1 ≤ (sheetDims wSheet0.2.1).1 :=
  workbook_table_region_spec wSt 0 1 2 wSheet0 (by decide)

/-- Allocation leaves every existing frame unchanged and grows the heap. -/
theorem allocDf_spec (st : PdState) (f : Frame) :
    (∀ i < st.heap.length, readDf (allocDf st f).1 i = readDf st i) ∧
    (allocDf st f).1.heap.length = st.heap.length + 1 ∧
    (allocDf st f).2 = st.heap.length := by
  refine ⟨?_, by simp [allocDf], rfl⟩
  intro i hi
  show (st.heap ++ [f]).getD i _ = st.heap.getD i _
  exact List.getD_append _ _ _ _ hi

/-- Writing behind one reference leaves the other frames unchanged. -/
theorem writeDf_spec (st : PdState) (r : Nat) (f : Frame) :
    (∀ i, i ≠ r → readDf (writeDf st r f) i = readDf st i) ∧
    (writeDf st r f).heap.length = st.heap.length := by
  refine ⟨?_, by simp [writeDf]⟩
  intro i hi
  show (st.heap.set r f).getD i _ = st.heap.getD i _
  rw [List.getD_eq_getElem?_getD, List.getD_eq_getElem?_getD,
    List.getElem?_set_ne (fun h => hi h.symm)]

/-- `reset_index` allocates; existing frames survive unchanged. -/
theorem pd_reset_index_spec (st : PdState) (r : Nat) :
    (∀ i < st.heap.length, readDf (pd_reset_index st r).1 i = readDf st i) ∧
    (pd_reset_index st r).1.heap.length = st.heap.length + 1 := by
  cases hf : readDf st r with
  | idx t =>
    have h1 : pd_reset_index st r = allocDf st (.plain (reset_index t)) := by
      rw [pd_reset_index, hf]
    rw [h1]
    exact ⟨(allocDf_spec st _).1, (allocDf_spec st _).2.1⟩
  | plain t =>
    have h1 : pd_reset_index st r = allocDf st (.plain t) := by
      rw [pd_reset_index, hf]
    rw [h1]
    exact ⟨(allocDf_spec st _).1, (allocDf_spec st _).2.1⟩

/-- `_excel_safe_headers` mutates only its fresh copy; existing frames
survive unchanged. -/
theorem excel_safe_headers_pd_spec (st : PdState) (r : Nat) :
    (∀ i < st.heap.length, readDf (excel_safe_headers_pd st r).1 i = readDf st i) ∧
    (excel_safe_headers_pd st r).1.heap.length = st.heap.length + 1 := by
  have hcopy := allocDf_spec st (readDf st r)
  constructor
  · intro i hi
    show readDf (pd_set_columns (allocDf st (readDf st r)).1
      (allocDf st (readDf st r)).2 _) i = readDf st i
    rw [pd_set_columns]
    have hne : i ≠ (allocDf st (readDf st r)).2 := by
      rw [hcopy.2.2]
      omega
    rw [(writeDf_spec _ _ _).1 i hne]
    exact hcopy.1 i hi
  · show (pd_set_columns (allocDf st (readDf st r)).1
      (allocDf st (readDf st r)).2 _).heap.length = st.heap.length + 1
    rw [pd_set_columns, (writeDf_spec _ _ _).2, hcopy.2.1]

/-- C9: exporting mutates none of the frames that existed before the call —
`reset_index` and `_excel_safe_headers` work on freshly allocated copies, so
the sanitized headers exist only in the written workbook while the caller's
comparison results are unchanged. -/
theorem to_excel_bytes_frame (st : PdState) (rOldIdx rNewIdx rAdded : Nat) :
    ∀ i < st.heap.length,
      readDf (to_excel_bytes_pd st rOldIdx rNewIdx rAdded).1 i = readDf st i := by
  intro i hi
  obtain ⟨s1, hs1⟩ : ∃ x, pd_reset_index st rOldIdx = x := ⟨_, rfl⟩
  obtain ⟨s2, hs2⟩ : ∃ x, excel_safe_headers_pd s1.1 s1.2 = x := ⟨_, rfl⟩
  obtain ⟨s3, hs3⟩ : ∃ x, pd_reset_index s2.1 rNewIdx = x := ⟨_, rfl⟩
  obtain ⟨s4, hs4⟩ : ∃ x, excel_safe_headers_pd s3.1 s3.2 = x := ⟨_, rfl⟩
  obtain ⟨s5, hs5⟩ : ∃ x, excel_safe_headers_pd s4.1 rAdded = x := ⟨_, rfl⟩
  have hfinal : (to_excel_bytes_pd st rOldIdx rNewIdx rAdded).1 = s5.1 := by
    show (excel_safe_headers_pd (excel_safe_headers_pd (pd_reset_index
        (excel_safe_headers_pd (pd_reset_index st rOldIdx).1
          (pd_reset_index st rOldIdx).2).1 rNewIdx).1
        (pd_reset_index (excel_safe_headers_pd (pd_reset_index st rOldIdx).1
          (pd_reset_index st rOldIdx).2).1 rNewIdx).2).1 rAdded).1 = s5.1
    rw [hs1, hs2, hs3, hs4, hs5]
  have h1 := pd_reset_index_spec st rOldIdx
  rw [hs1] at h1
  have h2 := excel_safe_headers_pd_spec s1.1 s1.2
  rw [hs2] at h2
  have h3 := pd_reset_index_spec s2.1 rNewIdx
  rw [hs3] at h3
  have h4 := excel_safe_headers_pd_spec s3.1 s3.2
  rw [hs4] at h4
  have h5 := excel_safe_headers_pd_spec s4.1 rAdded
  rw [hs5] at h5
  rw [hfinal,
    h5.1 i (by rw [h4.2, h3.2, h2.2, h1.2]; omega),
    h4.1 i (by rw [h3.2, h2.2, h1.2]; omega),
    h3.1 i (by rw [h2.2, h1.2]; omega),
    h2.1 i (by rw [h1.2]; omega),
    h1.1 i hi]

/-- Witness for C9 at the concrete heap (frame 0 exists before the call). -/
theorem to_excel_bytes_frame_witness :
    readDf (to_excel_bytes_pd wSt 0 1 2).1 0 = readDf wSt 0 :=
  to_excel_bytes_frame wSt 0 1 2 0 (by decide)
